import Mathlib

/-!
Verification of the CSS custom-property scanner and patcher of this
repository (`src/utils/cssParser.ts`).

The source text is modelled as a `List Char`; JavaScript string indexing
`s[i]` (which yields `undefined` out of bounds) is modelled by `List.getElem?`.
The scanner's `for` loop is modelled by the fuel-based recursion `scanFrom`:
each iteration consumes one unit of fuel and strictly advances the index, so
fuel `css.length` never runs out before the index reaches the end of the
input, and exhausted fuel returns the same value as loop exit.
-/

namespace CssEditor

/-- Whitespace stripped by JavaScript `String.prototype.trim`: tab through
carriage return, space, NBSP, BOM, and the Unicode space separators. -/
def isJsSpace (c : Char) : Bool :=
  c == ' ' || c == '\t' || c == '\n' || c == '\r' || c == '\x0b' || c == '\x0c' ||
  c == '\u00A0' || c == '\uFEFF' || c == '\u1680' ||
  (decide (0x2000 ≤ c.toNat) && decide (c.toNat ≤ 0x200A)) ||
  c == '\u2028' || c == '\u2029' || c == '\u202F' || c == '\u205F' || c == '\u3000'

/-- JavaScript `str.trim()` on a list of characters. -/
def trimChars (s : List Char) : List Char :=
  ((s.dropWhile isJsSpace).reverse.dropWhile isJsSpace).reverse

/-- One character of the regex class `[a-zA-Z0-9-_]` from the name check
`name.match(/^--[a-zA-Z0-9-_]+$/)` in `parseCssVariables`. -/
def isNameChar (c : Char) : Bool :=
  c.isAlpha || c.isDigit || c == '-' || c == '_'

/-- The full-string test `name.match(/^--[a-zA-Z0-9-_]+$/)`: a double hyphen
followed by one or more name characters. -/
def validName : List Char → Bool
  | '-' :: '-' :: rest => !rest.isEmpty && rest.all isNameChar
  | _ => false

/-- JavaScript `s.slice(a, b)` for `0 ≤ a`, `0 ≤ b` on a list of characters. -/
def sliceChars (s : List Char) (a b : Nat) : List Char :=
  (s.take b).drop a

/-- The check `css[j - 1] === '\\'` of the source, where `css[-1]` is
`undefined` (hence not a backslash). -/
def escapedAt (css : List Char) : Nat → Bool
  | 0 => false
  | j+1 => css[j]? == some '\\'

/-- Decimal digits of `n`, most significant first, with fuel (the source
interpolates numbers into template literals, producing base-10 numerals). -/
def natToDigitsAux : Nat → Nat → List Char
  | 0, _ => []
  | f+1, n => if n < 10 then [Nat.digitChar n] else natToDigitsAux f (n / 10) ++ [Nat.digitChar (n % 10)]

/-- The decimal numeral of `n`, as produced by JavaScript number-to-string
conversion of a non-negative integer index. -/
def natToString (n : Nat) : List Char :=
  natToDigitsAux (n+1) n

/-- The id template literal of the source: the scanner's current index, a
hyphen, and the value start index. -/
def mkId (i valueStartIndex : Nat) : List Char :=
  natToString i ++ '-' :: natToString valueStartIndex

/-- The `CssVariable` record of the source. All string fields are lists of
characters. -/
structure CssVariable where
  id : List Char
  name : List Char
  value : List Char
  startIndex : Nat
  endIndex : Nat
  selector : List Char
deriving DecidableEq

/-- The name/colon sub-scan of `parseCssVariables`: starting at `j`, find the
first colon outside a string; give up on an unquoted `;` or `}` or at end of
input. Fuel-based; the caller passes `css.length`, which is always enough,
and running out of fuel coincides with the end-of-input result `none`. -/
def findColon (css : List Char) : Nat → Nat → Option Char → Option Nat
  | 0, _, _ => none
  | f+1, j, tempInString =>
    match css[j]? with
    | none => none
    | some c =>
      if c = ':' ∧ tempInString = none then
        some j
      else
        let ts :=
          if (c = '"' ∨ c = '\'') ∧ escapedAt css j = false then
            if tempInString = some c then none
            else if tempInString = none then some c
            else tempInString
          else tempInString
        if (c = ';' ∨ c = '}') ∧ ts = none then none
        else findColon css f (j+1) ts

/-- The value sub-scan of `parseCssVariables`: starting at `k` (just past the
colon), find the first unquoted `;` or `}` at parenthesis depth zero, or
`none` at end of input. -/
def findValueEnd (css : List Char) : Nat → Nat → Option Char → Int → Option Nat
  | 0, _, _, _ => none
  | f+1, k, tempInStringVal, tempParenDepth =>
    match css[k]? with
    | none => none
    | some c =>
      let ts :=
        if (c = '"' ∨ c = '\'') ∧ escapedAt css k = false then
          if tempInStringVal = some c then none
          else if tempInStringVal = none then some c
          else tempInStringVal
        else tempInStringVal
      if ts = none then
        if c = '(' then findValueEnd css f (k+1) ts (tempParenDepth + 1)
        else if c = ')' then findValueEnd css f (k+1) ts (tempParenDepth - 1)
        else if (c = ';' ∨ c = '}') ∧ tempParenDepth = 0 then some k
        else findValueEnd css f (k+1) ts tempParenDepth
      else findValueEnd css f (k+1) ts tempParenDepth

/-- The body of the scanner loop of `parseCssVariables`, from index `i` with
the given state, returning the declarations found from this point on. Branches
mirror the source order: comment open, comment close, inside comment, string
open, string close, inside string, block open, block close, variable
detection, and the final selector-buffer accumulation (which only appends at
brace depth zero). -/
def scanFrom (css : List Char) :
    Nat → Nat → Int → Bool → Option Char → List Char → List Char → List CssVariable
  | 0, _, _, _, _, _, _ => []
  | fuel+1, i, braceDepth, inComment, inString, buffer, currentSelector =>
    match css[i]? with
    | none => []
    | some c =>
      if inString = none ∧ inComment = false ∧ c = '/' ∧ css[i+1]? = some '*' then
        scanFrom css fuel (i+2) braceDepth true inString buffer currentSelector
      else if inComment = true ∧ c = '*' ∧ css[i+1]? = some '/' then
        scanFrom css fuel (i+2) braceDepth false inString buffer currentSelector
      else if inComment = true then
        scanFrom css fuel (i+1) braceDepth inComment inString buffer currentSelector
      else if inString = none ∧ (c = '"' ∨ c = '\'') then
        scanFrom css fuel (i+1) braceDepth inComment (some c) buffer currentSelector
      else if inString = some c ∧ escapedAt css i = false then
        scanFrom css fuel (i+1) braceDepth inComment none buffer currentSelector
      else if inString ≠ none then
        scanFrom css fuel (i+1) braceDepth inComment inString buffer currentSelector
      else if c = '{' then
        scanFrom css fuel (i+1) (braceDepth+1) inComment inString []
          (if braceDepth = 0 then trimChars buffer else currentSelector)
      else if c = '}' then
        scanFrom css fuel (i+1) (braceDepth-1) inComment inString []
          (if braceDepth - 1 = 0 then [] else currentSelector)
      else if 0 < braceDepth ∧ c = '-' ∧ css[i+1]? = some '-' then
        match findColon css css.length i none with
        | some colonIndex =>
          if validName (trimChars (sliceChars css i colonIndex)) = true then
            match findValueEnd css css.length (colonIndex+1) none 0 with
            | some valueEndIndex =>
              { id := mkId i (colonIndex+1)
                name := trimChars (sliceChars css i colonIndex)
                value := sliceChars css (colonIndex+1) valueEndIndex
                startIndex := colonIndex+1
                endIndex := valueEndIndex
                selector := if currentSelector = [] then "Global".toList else currentSelector } ::
              scanFrom css fuel
                (if css[valueEndIndex]? = some '}' then valueEndIndex else valueEndIndex+1)
                braceDepth inComment inString buffer currentSelector
            | none =>
              scanFrom css fuel (i+1) braceDepth inComment inString
                (if braceDepth = 0 then buffer ++ [c] else buffer) currentSelector
          else
            scanFrom css fuel (i+1) braceDepth inComment inString
              (if braceDepth = 0 then buffer ++ [c] else buffer) currentSelector
        | none =>
          scanFrom css fuel (i+1) braceDepth inComment inString
            (if braceDepth = 0 then buffer ++ [c] else buffer) currentSelector
      else
        scanFrom css fuel (i+1) braceDepth inComment inString
          (if braceDepth = 0 then buffer ++ [c] else buffer) currentSelector

/-- The exported `parseCssVariables` entry point: scan the whole text from
index 0, depth 0, outside comments and strings, with empty selector buffer. -/
def parseCssVariables (css : List Char) : List CssVariable :=
  scanFrom css css.length 0 0 false none [] []

/-- One iteration of the patch loop of `patchCss`: if the edits mapping has an
entry for this declaration that differs from its original value, splice it
into the working buffer between `startIndex` and `endIndex`. -/
def patchStep (modifiedValues : List Char → Option (List Char))
    (patched : List Char) (v : CssVariable) : List Char :=
  match modifiedValues v.id with
  | some newVal =>
    if newVal ≠ v.value then patched.take v.startIndex ++ newVal ++ patched.drop v.endIndex
    else patched
  | none => patched

/-- The exported `patchCss` entry point: sort a copy of the declarations by
descending `startIndex` (the stable JavaScript sort with comparator
`b.startIndex - a.startIndex`) and fold the patch step over the original
text. The edits `Record` is modelled as a partial mapping from ids. -/
def patchCss (originalCss : List Char) (vars : List CssVariable)
    (modifiedValues : List Char → Option (List Char)) : List Char :=
  (vars.mergeSort (fun a b => decide (b.startIndex ≤ a.startIndex))).foldl
    (patchStep modifiedValues) originalCss

/-- Specification-side description of the patched text, for the frame
property: the bytes of the original before the first declaration span,
then per declaration either the replacement (when the edits mapping has a
differing entry) or the original span bytes, then the bytes after the last
span, all at the original offsets. -/
def renderPatched (css : List Char) (modifiedValues : List Char → Option (List Char)) :
    Nat → List CssVariable → List Char
  | pos, [] => css.drop pos
  | pos, v :: rest =>
    sliceChars css pos v.startIndex ++
    (match modifiedValues v.id with
     | some newVal => if newVal ≠ v.value then newVal else sliceChars css v.startIndex v.endIndex
     | none => sliceChars css v.startIndex v.endIndex) ++
    renderPatched css modifiedValues v.endIndex rest

/-- Invariant of the scanner output from a lower position bound `lo`: spans
are inside the text, ordered, separated, carry the exact source slice as
value, a trimmed or sentinel selector, and a position-derived id. -/
def VarsOk (css : List Char) : Nat → List CssVariable → Prop
  | _, [] => True
  | lo, v :: rest =>
    lo ≤ v.startIndex ∧ v.startIndex ≤ v.endIndex ∧ v.endIndex < css.length ∧
    sliceChars css v.startIndex v.endIndex = v.value ∧
    (v.selector = "Global".toList ∨ (v.selector ≠ [] ∧ trimChars v.selector = v.selector)) ∧
    (∃ i₀, lo ≤ i₀ ∧ i₀ < v.startIndex ∧ v.id = mkId i₀ v.startIndex ∧
      css[i₀]? = some '-' ∧ css[i₀+1]? = some '-') ∧
    VarsOk css (v.endIndex + 1) rest

/-- Base-10 value of a digit string, used to invert `natToString`. -/
def digitsVal (l : List Char) : Nat :=
  l.foldl (fun a c => 10 * a + (c.toNat - '0'.toNat)) 0

/-- Example input from the spec: a rule with two declarations. -/
def exTwoDecls : List Char := ":root\x7b--a: 1px; --b: 2px;\x7d".toList

/-- Example input from the spec: an unterminated declaration. -/
def exUnterminated : List Char := ":root\x7b--a: 1px".toList

/-- Example input: a stray leading closing brace before a well-formed rule. -/
def exStrayBrace : List Char := "\x7d .a\x7b--x: 1;\x7d".toList

/-- Example input: a declaration whose colon is immediately followed by the
terminator. -/
def exEmptyValue : List Char := ":root\x7b--a:;\x7d".toList

/-- Example input: a block whose prelude is empty. -/
def exEmptyPrelude : List Char := "\x7b--a: 1;\x7d".toList

/-- Example input: a backslash-escaped double quote outside any string,
followed by a block with one declaration. -/
def exEscapedQuote : List Char := "\\\"\x7b--a: 1;\x7d".toList

/-- Example input: a quoted string before a block with one declaration. -/
def exQuoted : List Char := "\"x\" a\x7b--q: 2;\x7d".toList

theorem natToDigitsAux_congr (n : Nat) :
    ∀ f g, n < f → n < g → natToDigitsAux f n = natToDigitsAux g n := by
  induction n using Nat.strong_induction_on with
  | _ n ih =>
    intro f g hf hg
    cases f with
    | zero => omega
    | succ f =>
      cases g with
      | zero => omega
      | succ g =>
        simp only [natToDigitsAux]
        by_cases h : n < 10
        · simp [h]
        · have hdiv : n / 10 < n := Nat.div_lt_self (by omega) (by omega)
          simp only [if_neg h]
          rw [ih (n / 10) hdiv f g (by omega) (by omega)]

theorem digitsVal_append_singleton (l : List Char) (c : Char) :
    digitsVal (l ++ [c]) = 10 * digitsVal l + (c.toNat - '0'.toNat) := by
  simp [digitsVal, List.foldl_append]

theorem digitChar_val : ∀ d, d < 10 → (Nat.digitChar d).toNat - '0'.toNat = d := by decide

theorem digitChar_isDigit : ∀ d, d < 10 → (Nat.digitChar d).isDigit = true := by decide

theorem natToString_eq_base {n : Nat} (h : n < 10) : natToString n = [Nat.digitChar n] := by
  have h0 : natToString n
      = if n < 10 then [Nat.digitChar n] else natToDigitsAux n (n / 10) ++ [Nat.digitChar (n % 10)] := rfl
  rw [h0, if_pos h]

theorem natToString_eq_step {n : Nat} (h : ¬ n < 10) :
    natToString n = natToString (n / 10) ++ [Nat.digitChar (n % 10)] := by
  have h0 : natToString n
      = if n < 10 then [Nat.digitChar n] else natToDigitsAux n (n / 10) ++ [Nat.digitChar (n % 10)] := rfl
  rw [h0, if_neg h, natToDigitsAux_congr (n / 10) n (n / 10 + 1)
    (Nat.div_lt_self (by omega) (by omega)) (Nat.lt_succ_self _)]
  rfl

theorem digitsVal_natToString (n : Nat) : digitsVal (natToString n) = n := by
  induction n using Nat.strong_induction_on with
  | _ n ih =>
    by_cases h : n < 10
    · rw [natToString_eq_base h]
      simpa [digitsVal] using digitChar_val n h
    · have hdiv : n / 10 < n := Nat.div_lt_self (by omega) (by omega)
      rw [natToString_eq_step h, digitsVal_append_singleton, ih (n / 10) hdiv,
        digitChar_val (n % 10) (Nat.mod_lt n (by omega))]
      omega

theorem natToString_inj {m n : Nat} (h : natToString m = natToString n) : m = n := by
  have := digitsVal_natToString m
  rw [h, digitsVal_natToString] at this
  omega

theorem natToString_digits (n : Nat) : ∀ c ∈ natToString n, c.isDigit = true := by
  induction n using Nat.strong_induction_on with
  | _ n ih =>
    intro c hc
    by_cases h : n < 10
    · rw [natToString_eq_base h, List.mem_singleton] at hc
      exact hc ▸ digitChar_isDigit n h
    · have hdiv : n / 10 < n := Nat.div_lt_self (by omega) (by omega)
      rw [natToString_eq_step h] at hc
      rcases List.mem_append.1 hc with h1 | h1
      · exact ih (n / 10) hdiv c h1
      · rw [List.mem_singleton] at h1
        exact h1 ▸ digitChar_isDigit (n % 10) (Nat.mod_lt n (by omega))

theorem dash_not_mem_natToString (n : Nat) : '-' ∉ natToString n := by
  intro hmem
  have := natToString_digits n '-' hmem
  simp [Char.isDigit] at this

theorem append_dash_inj :
    ∀ (a : List Char) (b c d : List Char), '-' ∉ a → '-' ∉ b →
      a ++ '-' :: c = b ++ '-' :: d → a = b ∧ c = d := by
  intro a
  induction a with
  | nil =>
    intro b c d _ hb h
    cases b with
    | nil => simpa using h
    | cons x xs =>
      simp only [List.nil_append, List.cons_append, List.cons.injEq] at h
      exact absurd (h.1 ▸ List.mem_cons_self x xs) hb
  | cons x xs ih =>
    intro b c d ha hb h
    cases b with
    | nil =>
      simp only [List.cons_append, List.nil_append, List.cons.injEq] at h
      exact absurd (h.1 ▸ List.mem_cons_self x xs) ha
    | cons y ys =>
      simp only [List.cons_append, List.cons.injEq] at h
      obtain ⟨hxy, htail⟩ := h
      have := ih ys c d (fun hm => ha (List.mem_cons_of_mem x hm))
        (fun hm => hb (hxy ▸ List.mem_cons_of_mem y hm)) htail
      exact ⟨by rw [hxy, this.1], this.2⟩

theorem mkId_inj {i s j t : Nat} (h : mkId i s = mkId j t) : i = j ∧ s = t := by
  have := append_dash_inj (natToString i) (natToString j) (natToString s) (natToString t)
    (dash_not_mem_natToString i) (dash_not_mem_natToString j) h
  exact ⟨natToString_inj this.1, natToString_inj this.2⟩

theorem dropWhile_idem (p : α → Bool) (l : List α) :
    (l.dropWhile p).dropWhile p = l.dropWhile p := by
  cases h : l.dropWhile p with
  | nil => simp
  | cons a t =>
    have hpa : p a = false := by
      have := List.head?_dropWhile_not p l
      rw [h] at this
      simpa using this
    simp [List.dropWhile_cons, hpa]

theorem trimChars_prefix_dropWhile (l : List Char) :
    trimChars l <+: l.dropWhile isJsSpace := by
  show ((l.dropWhile isJsSpace).reverse.dropWhile isJsSpace).reverse <+: l.dropWhile isJsSpace
  have h : ((l.dropWhile isJsSpace).reverse.dropWhile isJsSpace).reverse
      <+: (l.dropWhile isJsSpace).reverse.reverse :=
    List.reverse_prefix.2 (List.dropWhile_suffix isJsSpace)
  rwa [List.reverse_reverse] at h

theorem dropWhile_trimChars (s : List Char) :
    (trimChars s).dropWhile isJsSpace = trimChars s := by
  cases h : trimChars s with
  | nil => simp
  | cons b u =>
    obtain ⟨t, ht⟩ := trimChars_prefix_dropWhile s
    rw [h] at ht
    have hb : isJsSpace b = false := by
      have hfail := List.head?_dropWhile_not isJsSpace s
      rw [← ht] at hfail
      simpa using hfail
    simp [List.dropWhile_cons, hb]

theorem trimChars_idem (s : List Char) : trimChars (trimChars s) = trimChars s := by
  show (((trimChars s).dropWhile isJsSpace).reverse.dropWhile isJsSpace).reverse = trimChars s
  rw [dropWhile_trimChars]
  show ((((s.dropWhile isJsSpace).reverse.dropWhile isJsSpace).reverse).reverse.dropWhile isJsSpace).reverse = trimChars s
  rw [List.reverse_reverse, dropWhile_idem]
  rfl

theorem findColon_le (css : List Char) :
    ∀ f j ts r, findColon css f j ts = some r → j ≤ r := by
  intro f
  induction f with
  | zero => intro j ts r h; exact absurd h (by simp [findColon])
  | succ f ih =>
    intro j ts r h
    simp only [findColon] at h
    cases hj : css[j]? with
    | none => simp only [hj] at h; exact absurd h (by simp)
    | some c =>
      simp only [hj] at h
      split at h
      · exact Nat.le_of_eq (Option.some.inj h)
      · repeat any_goals split at h
        all_goals
          first
            | exact Option.noConfusion h
            | exact Nat.le_of_succ_le (ih (j+1) _ r h)

theorem findValueEnd_bounds (css : List Char) :
    ∀ f k ts pd r, findValueEnd css f k ts pd = some r →
      k ≤ r ∧ r < css.length ∧ (css[r]? = some ';' ∨ css[r]? = some '}') := by
  intro f
  induction f with
  | zero => intro k ts pd r h; exact absurd h (by simp [findValueEnd])
  | succ f ih =>
    intro k ts pd r h
    simp only [findValueEnd] at h
    cases hk : css[k]? with
    | none => simp only [hk] at h; exact absurd h (by simp)
    | some c =>
      simp only [hk] at h
      repeat any_goals split at h
      all_goals
        first
          | exact Option.noConfusion h
          | (have h2 := ih (k+1) _ _ r h
             exact ⟨by omega, h2.2⟩)
          | (rename_i hterm
             have hkr : k = r := Option.some.inj h
             subst hkr
             obtain ⟨hlen, -⟩ := List.getElem?_eq_some_iff.mp hk
             refine ⟨Nat.le_refl k, hlen, ?_⟩
             rcases hterm.1 with hc | hc
             · exact Or.inl (by rw [hk, hc])
             · exact Or.inr (by rw [hk, hc]))

theorem varsOk_mono (css : List Char) {lo lo' : Nat} (h : lo' ≤ lo) :
    ∀ l, VarsOk css lo l → VarsOk css lo' l := by
  intro l hl
  cases l with
  | nil => trivial
  | cons v rest =>
    obtain ⟨h1, h2, h3, h4, h5, ⟨i₀, hi1, hi2, hi3, hi4, hi5⟩, h7⟩ := hl
    exact ⟨Nat.le_trans h h1, h2, h3, h4, h5, ⟨i₀, Nat.le_trans h hi1, hi2, hi3, hi4, hi5⟩, h7⟩

theorem varsOk_scanFrom (css : List Char) :
    ∀ fuel i braceDepth inComment inString buffer currentSelector,
      (currentSelector = [] ∨ trimChars currentSelector = currentSelector) →
      VarsOk css i (scanFrom css fuel i braceDepth inComment inString buffer currentSelector) := by
  intro fuel
  induction fuel using Nat.strong_induction_on with
  | _ fuel ih =>
    cases fuel with
    | zero =>
      intro i bd ic istr buf sel hsel
      simp only [scanFrom]
      trivial
    | succ fuel =>
      intro i bd ic istr buf sel hsel
      simp only [scanFrom]
      rcases Option.eq_none_or_eq_some css[i]? with hi | ⟨c, hi⟩
      · simp only [hi]
        trivial
      · simp only [hi]
        by_cases h1 : istr = none ∧ ic = false ∧ c = '/' ∧ css[i+1]? = some '*'
        · rw [if_pos h1]
          exact varsOk_mono css (by omega) _ (ih fuel (by omega) (i+2) bd true istr buf sel hsel)
        · rw [if_neg h1]
          by_cases h2 : ic = true ∧ c = '*' ∧ css[i+1]? = some '/'
          · rw [if_pos h2]
            exact varsOk_mono css (by omega) _ (ih fuel (by omega) (i+2) bd false istr buf sel hsel)
          · rw [if_neg h2]
            by_cases h3 : ic = true
            · rw [if_pos h3]
              exact varsOk_mono css (by omega) _ (ih fuel (by omega) (i+1) bd ic istr buf sel hsel)
            · rw [if_neg h3]
              by_cases h4 : istr = none ∧ (c = '"' ∨ c = '\'')
              · rw [if_pos h4]
                exact varsOk_mono css (by omega) _
                  (ih fuel (by omega) (i+1) bd ic (some c) buf sel hsel)
              · rw [if_neg h4]
                by_cases h5 : istr = some c ∧ escapedAt css i = false
                · rw [if_pos h5]
                  exact varsOk_mono css (by omega) _
                    (ih fuel (by omega) (i+1) bd ic none buf sel hsel)
                · rw [if_neg h5]
                  by_cases h6 : istr ≠ none
                  · rw [if_pos h6]
                    exact varsOk_mono css (by omega) _
                      (ih fuel (by omega) (i+1) bd ic istr buf sel hsel)
                  · rw [if_neg h6]
                    by_cases h7 : c = '{'
                    · rw [if_pos h7]
                      refine varsOk_mono css (by omega) _
                        (ih fuel (by omega) (i+1) (bd+1) ic istr [] _ ?_)
                      by_cases hbd : bd = 0
                      · rw [if_pos hbd]
                        exact Or.inr (trimChars_idem buf)
                      · rw [if_neg hbd]
                        exact hsel
                    · rw [if_neg h7]
                      by_cases h8 : c = '}'
                      · rw [if_pos h8]
                        refine varsOk_mono css (by omega) _
                          (ih fuel (by omega) (i+1) (bd-1) ic istr [] _ ?_)
                        by_cases hbd : bd - 1 = 0
                        · rw [if_pos hbd]
                          exact Or.inl rfl
                        · rw [if_neg hbd]
                          exact hsel
                      · rw [if_neg h8]
                        by_cases h9 : 0 < bd ∧ c = '-' ∧ css[i+1]? = some '-'
                        · rw [if_pos h9]
                          have histr : istr = none := not_not.mp h6
                          have hic : ic = false := by
                            cases ic with
                            | false => rfl
                            | true => exact absurd rfl h3
                          subst histr hic
                          obtain ⟨hbd0, hcdash, hnext⟩ := h9
                          subst hcdash
                          rcases Option.eq_none_or_eq_some (findColon css css.length i none) with
                            hcol | ⟨colonIndex, hcol⟩
                          · simp only [hcol]
                            exact varsOk_mono css (by omega) _
                              (ih fuel (by omega) (i+1) bd false none _ sel hsel)
                          · simp only [hcol]
                            by_cases hvalid :
                                validName (trimChars (sliceChars css i colonIndex)) = true
                            · rw [if_pos hvalid]
                              rcases Option.eq_none_or_eq_some
                                  (findValueEnd css css.length (colonIndex+1) none 0) with
                                hend | ⟨valueEndIndex, hend⟩
                              · simp only [hend]
                                exact varsOk_mono css (by omega) _
                                  (ih fuel (by omega) (i+1) bd false none _ sel hsel)
                              · simp only [hend]
                                have hcol_le := findColon_le css css.length i none colonIndex hcol
                                obtain ⟨hse, hel, hterm⟩ :=
                                  findValueEnd_bounds css css.length (colonIndex+1) none 0
                                    valueEndIndex hend
                                refine ⟨by show i ≤ colonIndex + 1; omega, hse, hel, rfl, ?_,
                                  ⟨i, Nat.le_refl i, by show i < colonIndex + 1; omega, rfl,
                                    hi, hnext⟩, ?_⟩
                                · by_cases hsel0 : sel = []
                                  · rw [if_pos hsel0]
                                    exact Or.inl rfl
                                  · rw [if_neg hsel0]
                                    rcases hsel with h | h
                                    · exact absurd h hsel0
                                    · exact Or.inr ⟨hsel0, h⟩
                                · rcases hterm with hsemi | hbrace
                                  · have hne : ¬ (css[valueEndIndex]? = some '}') := by
                                      rw [hsemi]
                                      simp
                                    rw [if_neg hne]
                                    exact ih fuel (by omega) (valueEndIndex+1) bd false none
                                      buf sel hsel
                                  · rw [if_pos hbrace]
                                    cases fuel with
                                    | zero =>
                                      simp only [scanFrom]
                                      trivial
                                    | succ fuel2 =>
                                      have e1 : (('}' : Char) = '/') = False := eq_false (by decide)
                                      have e2 : (('}' : Char) = '*') = False := eq_false (by decide)
                                      have e4a : (('}' : Char) = '"') = False := eq_false (by decide)
                                      have e4b : (('}' : Char) = '\'') = False := eq_false (by decide)
                                      have e7 : (('}' : Char) = '{') = False := eq_false (by decide)
                                      have hstep :
                                          scanFrom css (fuel2+1) valueEndIndex bd false none buf sel
                                            = scanFrom css fuel2 (valueEndIndex+1) (bd-1) false none
                                                [] (if bd - 1 = 0 then [] else sel) := by
                                        simp only [scanFrom, hbrace]
                                        simp [e1, e2, e4a, e4b, e7]
                                      rw [hstep]
                                      refine ih fuel2 (by omega) (valueEndIndex+1) (bd-1) false none
                                        [] _ ?_
                                      by_cases hbd1 : bd - 1 = 0
                                      · rw [if_pos hbd1]
                                        exact Or.inl rfl
                                      · rw [if_neg hbd1]
                                        exact hsel
                            · rw [if_neg hvalid]
                              exact varsOk_mono css (by omega) _
                                (ih fuel (by omega) (i+1) bd false none _ sel hsel)
                        · rw [if_neg h9]
                          exact varsOk_mono css (by omega) _
                            (ih fuel (by omega) (i+1) bd ic istr _ sel hsel)

theorem varsOk_parse (css : List Char) : VarsOk css 0 (parseCssVariables css) :=
  varsOk_scanFrom css css.length 0 0 false none [] [] (Or.inl rfl)

theorem varsOk_mem (css : List Char) :
    ∀ (l : List CssVariable) (lo : Nat), VarsOk css lo l → ∀ v ∈ l,
      lo ≤ v.startIndex ∧ v.startIndex ≤ v.endIndex ∧ v.endIndex < css.length ∧
      sliceChars css v.startIndex v.endIndex = v.value ∧
      (v.selector = "Global".toList ∨ (v.selector ≠ [] ∧ trimChars v.selector = v.selector)) ∧
      (∃ i₀, lo ≤ i₀ ∧ i₀ < v.startIndex ∧ v.id = mkId i₀ v.startIndex ∧
        css[i₀]? = some '-' ∧ css[i₀+1]? = some '-') := by
  intro l
  induction l with
  | nil =>
    intro lo _ v hv
    exact absurd hv (List.not_mem_nil v)
  | cons w rest ih =>
    intro lo hOk v hv
    obtain ⟨h1, h2, h3, h4, h5, h6, h7⟩ := hOk
    rcases List.mem_cons.mp hv with rfl | hv
    · exact ⟨h1, h2, h3, h4, h5, h6⟩
    · obtain ⟨k1, k2, k3, k4, k5, k6⟩ := ih (w.endIndex + 1) h7 v hv
      obtain ⟨i₀, hi1, hi2, hi3, hi4, hi5⟩ := k6
      exact ⟨by omega, k2, k3, k4, k5, ⟨i₀, by omega, hi2, hi3, hi4, hi5⟩⟩

theorem varsOk_pairwise (css : List Char) :
    ∀ (l : List CssVariable) (lo : Nat), VarsOk css lo l →
      l.Pairwise (fun a b => a.startIndex < b.startIndex ∧ a.endIndex < b.startIndex) := by
  intro l
  induction l with
  | nil => intro lo _; exact List.Pairwise.nil
  | cons w rest ih =>
    intro lo hOk
    obtain ⟨h1, h2, h3, h4, h5, h6, h7⟩ := hOk
    refine List.Pairwise.cons ?_ (ih _ h7)
    intro v hv
    have hm := varsOk_mem css rest (w.endIndex + 1) h7 v hv
    exact ⟨by omega, by omega⟩

theorem varsOk_ids_distinct (css : List Char) :
    ∀ (l : List CssVariable) (lo : Nat), VarsOk css lo l →
      l.Pairwise (fun a b => a.id ≠ b.id) := by
  intro l
  induction l with
  | nil => intro lo _; exact List.Pairwise.nil
  | cons w rest ih =>
    intro lo hOk
    obtain ⟨h1, h2, h3, h4, h5, ⟨i₀, hi1, hi2, hi3, hi4, hi5⟩, h7⟩ := hOk
    refine List.Pairwise.cons ?_ (ih _ h7)
    intro v hv hid
    have hm := varsOk_mem css rest (w.endIndex + 1) h7 v hv
    obtain ⟨j₀, hj1, hj2, hj3, -, -⟩ := hm.2.2.2.2.2
    rw [hi3, hj3] at hid
    have heq := (mkId_inj hid).1
    omega

theorem foldl_patchStep_none (l : List CssVariable) :
    ∀ acc : List Char, l.foldl (patchStep (fun _ => none)) acc = acc := by
  induction l with
  | nil => intro acc; rfl
  | cons v rest ih => intro acc; exact ih acc

theorem sorted_desc_unique :
    ∀ (l₁ l₂ : List CssVariable), l₁.Perm l₂ →
      l₁.Pairwise (fun a b => b.startIndex ≤ a.startIndex) →
      l₂.Pairwise (fun a b => b.startIndex ≤ a.startIndex) →
      l₁.Pairwise (fun a b => a.startIndex ≠ b.startIndex) →
      l₁ = l₂ := by
  intro l₁
  induction l₁ with
  | nil =>
    intro l₂ hp _ _ _
    exact (hp.symm.eq_nil).symm
  | cons w t ih =>
    intro l₂ hp hs1 hs2 hd
    cases l₂ with
    | nil => exact absurd hp.eq_nil (by simp)
    | cons u t₂ =>
      by_cases hwu : w = u
      · subst hwu
        rw [ih t₂ hp.cons_inv (List.pairwise_cons.mp hs1).2 (List.pairwise_cons.mp hs2).2
          (List.pairwise_cons.mp hd).2]
      · exfalso
        have hw2 : w ∈ u :: t₂ := hp.mem_iff.mp (List.mem_cons_self w t)
        have hwt2 : w ∈ t₂ := by
          rcases List.mem_cons.mp hw2 with h | h
          · exact absurd h hwu
          · exact h
        have hle1 : w.startIndex ≤ u.startIndex := (List.pairwise_cons.mp hs2).1 w hwt2
        have hu1 : u ∈ w :: t := hp.symm.mem_iff.mp (List.mem_cons_self u t₂)
        have hut : u ∈ t := by
          rcases List.mem_cons.mp hu1 with h | h
          · exact absurd h.symm hwu
          · exact h
        have hle2 : u.startIndex ≤ w.startIndex := (List.pairwise_cons.mp hs1).1 u hut
        have hne : w.startIndex ≠ u.startIndex := (List.pairwise_cons.mp hd).1 u hut
        omega

theorem mergeSort_desc_eq_reverse (l : List CssVariable)
    (hasc : l.Pairwise (fun a b => a.startIndex < b.startIndex)) :
    l.mergeSort (fun a b => decide (b.startIndex ≤ a.startIndex)) = l.reverse := by
  have hperm : (l.mergeSort (fun a b => decide (b.startIndex ≤ a.startIndex))).Perm l :=
    List.mergeSort_perm l _
  have hsorted : (l.mergeSort (fun a b => decide (b.startIndex ≤ a.startIndex))).Pairwise
      (fun a b => b.startIndex ≤ a.startIndex) := by
    have h := @List.sorted_mergeSort CssVariable
      (fun a b => decide (b.startIndex ≤ a.startIndex))
      (fun a b c h1 h2 => by
        simp only [decide_eq_true_eq] at h1 h2 ⊢
        omega)
      (fun a b => by simpa using Nat.le_total b.startIndex a.startIndex) l
    exact h.imp (fun h => by simpa using h)
  have hrev : l.reverse.Pairwise (fun a b => b.startIndex ≤ a.startIndex) := by
    rw [List.pairwise_reverse]
    exact hasc.imp (fun h => Nat.le_of_lt h)
  have hd0 : l.Pairwise (fun a b => a.startIndex ≠ b.startIndex) :=
    hasc.imp (fun h => Nat.ne_of_lt h)
  have hd : (l.mergeSort (fun a b => decide (b.startIndex ≤ a.startIndex))).Pairwise
      (fun a b => a.startIndex ≠ b.startIndex) :=
    (List.Perm.pairwise_iff (fun h => h.symm) hperm).mpr hd0
  exact sorted_desc_unique _ _ (hperm.trans (List.reverse_perm l).symm) hsorted hrev hd

theorem take_append_slice (css : List Char) {p q : Nat} (h : p ≤ q) :
    css.take p ++ sliceChars css p q = css.take q := by
  show css.take p ++ (css.take q).drop p = css.take q
  conv_lhs => rw [show css.take p = (css.take q).take p by
    rw [List.take_take, Nat.min_eq_left h]]
  exact List.take_append_drop p (css.take q)

theorem slice_cons (css : List Char) {p q : Nat} (hpq : p < q) (hp : p < css.length) :
    sliceChars css p q = css[p] :: sliceChars css (p+1) q := by
  show (css.take q).drop p = css[p] :: (css.take q).drop (p+1)
  have hlen : p < (css.take q).length := by
    rw [List.length_take]
    omega
  rw [List.drop_eq_getElem_cons hlen]
  congr 1
  simp

theorem renderPatched_pos_cons (css : List Char) (edits : List Char → Option (List Char))
    (pos : Nat) (l : List CssVariable) (hp : pos < css.length) (hOk : VarsOk css (pos+1) l) :
    renderPatched css edits pos l = css[pos] :: renderPatched css edits (pos+1) l := by
  cases l with
  | nil =>
    show css.drop pos = css[pos] :: css.drop (pos+1)
    exact List.drop_eq_getElem_cons hp
  | cons v rest =>
    obtain ⟨h1, -⟩ := hOk
    simp only [renderPatched]
    rw [slice_cons css (show pos < v.startIndex by omega) hp]
    simp [List.cons_append]

theorem foldr_patchStep_render (css : List Char) (edits : List Char → Option (List Char)) :
    ∀ (l : List CssVariable) (pos : Nat), VarsOk css pos l →
      l.foldr (fun v acc => patchStep edits acc v) css
        = css.take pos ++ renderPatched css edits pos l := by
  intro l
  induction l with
  | nil =>
    intro pos _
    show css = css.take pos ++ css.drop pos
    exact (List.take_append_drop pos css).symm
  | cons v rest ih =>
    intro pos hOk
    obtain ⟨h1, h2, h3, h4, h5, h6, h7⟩ := hOk
    have hrest := ih (v.endIndex + 1) h7
    have hcons : renderPatched css edits v.endIndex rest
        = css[v.endIndex] :: renderPatched css edits (v.endIndex+1) rest :=
      renderPatched_pos_cons css edits v.endIndex rest h3 h7
    have hkey : css.take (v.endIndex+1) ++ renderPatched css edits (v.endIndex+1) rest
        = css.take v.endIndex ++ renderPatched css edits v.endIndex rest := by
      rw [hcons, show css.take (v.endIndex+1) = css.take v.endIndex ++ [css[v.endIndex]] from by
        rw [List.take_succ, List.getElem?_eq_getElem h3]
        rfl, List.append_assoc, List.singleton_append]
    show patchStep edits (rest.foldr (fun v acc => patchStep edits acc v) css) v
      = css.take pos ++ renderPatched css edits pos (v :: rest)
    rw [hrest]
    simp only [renderPatched]
    rcases hedit : edits v.id with _ | nv
    · simp only [patchStep, hedit]
      rw [hkey, ← List.append_assoc, ← List.append_assoc, take_append_slice css h1,
        take_append_slice css h2]
    · simp only [patchStep, hedit]
      by_cases hne : nv ≠ v.value
      · rw [if_pos hne, if_pos hne]
        have hlen1 : (css.take (v.endIndex+1)).length = v.endIndex+1 := by
          rw [List.length_take]
          omega
        have htake : ((css.take (v.endIndex+1)
            ++ renderPatched css edits (v.endIndex+1) rest)).take v.startIndex
            = css.take v.startIndex := by
          rw [List.take_append_eq_append_take, hlen1,
            show v.startIndex - (v.endIndex+1) = 0 by omega]
          simp [List.take_take, Nat.min_eq_left (show v.startIndex ≤ v.endIndex+1 by omega)]
        have hdrop : ((css.take (v.endIndex+1)
            ++ renderPatched css edits (v.endIndex+1) rest)).drop v.endIndex
            = css[v.endIndex] :: renderPatched css edits (v.endIndex+1) rest := by
          rw [List.drop_append_eq_append_drop, hlen1,
            show v.endIndex - (v.endIndex+1) = 0 by omega, List.drop_take,
            show v.endIndex + 1 - v.endIndex = 1 by omega, List.drop_eq_getElem_cons h3]
          rfl
        rw [htake, hdrop, hcons, ← List.append_assoc, ← List.append_assoc,
          take_append_slice css h1]
      · rw [if_neg hne, if_neg hne]
        rw [hkey, ← List.append_assoc, ← List.append_assoc, take_append_slice css h1,
          take_append_slice css h2]

theorem patchCss_eq_render (css : List Char) (edits : List Char → Option (List Char)) :
    patchCss css (parseCssVariables css) edits
      = renderPatched css edits 0 (parseCssVariables css) := by
  have hOk := varsOk_parse css
  have hasc : (parseCssVariables css).Pairwise (fun a b => a.startIndex < b.startIndex) :=
    (varsOk_pairwise css _ 0 hOk).imp (fun h => h.1)
  show (List.mergeSort (parseCssVariables css)
      (fun a b => decide (b.startIndex ≤ a.startIndex))).foldl (patchStep edits) css
    = renderPatched css edits 0 (parseCssVariables css)
  rw [mergeSort_desc_eq_reverse _ hasc, List.foldl_reverse]
  have h := foldr_patchStep_render css edits (parseCssVariables css) 0 hOk
  simpa using h

theorem scanFrom_emit (css : List Char) (fuel i : Nat) (bd : Int) (buf sel : List Char)
    {colonIndex valueEndIndex : Nat}
    (hi : css[i]? = some '-') (hnext : css[i+1]? = some '-') (hbd : 0 < bd)
    (hcol : findColon css css.length i none = some colonIndex)
    (hname : validName (trimChars (sliceChars css i colonIndex)) = true)
    (hend : findValueEnd css css.length (colonIndex+1) none 0 = some valueEndIndex) :
    scanFrom css (fuel+1) i bd false none buf sel =
      { id := mkId i (colonIndex+1)
        name := trimChars (sliceChars css i colonIndex)
        value := sliceChars css (colonIndex+1) valueEndIndex
        startIndex := colonIndex+1
        endIndex := valueEndIndex
        selector := if sel = [] then "Global".toList else sel } ::
      scanFrom css fuel
        (if css[valueEndIndex]? = some '}' then valueEndIndex else valueEndIndex+1)
        bd false none buf sel := by
  have c1 : (('-' : Char) = '/') = False := eq_false (by decide)
  have c2 : (('-' : Char) = '*') = False := eq_false (by decide)
  have c3 : (('-' : Char) = '"') = False := eq_false (by decide)
  have c4 : (('-' : Char) = '\'') = False := eq_false (by decide)
  have c5 : (('-' : Char) = '{') = False := eq_false (by decide)
  have c6 : (('-' : Char) = '}') = False := eq_false (by decide)
  have c7 : ((none : Option Char) = some '-') = False :=
    eq_false (fun h => Option.noConfusion h)
  have c8 : ((0 : Int) < bd) = True := eq_true hbd
  simp only [scanFrom, hi, c1, c2, c3, c4, c5, c6, c7, c8, hnext, hcol, hname, hend,
    eq_self_iff_true, true_and, and_true, and_false, false_and, if_true, if_false,
    ite_true, ite_false, Bool.false_eq_true, not_true, ne_eq, not_false_iff, or_false,
    false_or]

theorem findValueEnd_immediate (css : List Char) (f k : Nat) (c : Char)
    (hk : css[k]? = some c) (hc : c = ';' ∨ c = '}') :
    findValueEnd css (f+1) k none 0 = some k := by
  simp only [findValueEnd, hk]
  rcases hc with rfl | rfl
  · rw [if_pos (show ((';' : Char) = ';' ∨ (';' : Char) = '}') ∧ True from
      ⟨Or.inl rfl, trivial⟩)]
    have d1 : ((';' : Char) = '"') = False := eq_false (by decide)
    have d2 : ((';' : Char) = '\'') = False := eq_false (by decide)
    have d3 : ((';' : Char) = '(') = False := eq_false (by decide)
    have d4 : ((';' : Char) = ')') = False := eq_false (by decide)
    simp [d1, d2, d3, d4]
  · rw [if_pos (show (('}' : Char) = ';' ∨ ('}' : Char) = '}') ∧ True from
      ⟨Or.inr rfl, trivial⟩)]
    have d1 : (('}' : Char) = '"') = False := eq_false (by decide)
    have d2 : (('}' : Char) = '\'') = False := eq_false (by decide)
    have d3 : (('}' : Char) = '(') = False := eq_false (by decide)
    have d4 : (('}' : Char) = ')') = False := eq_false (by decide)
    simp [d1, d2, d3, d4]

/-- Claim C1: for every input text, patching with an empty edits mapping is
the identity: `patchCss css (parseCssVariables css) empty` returns the input
text unchanged, character for character. The empty JavaScript `Record` is the
mapping with no entries, modelled by the constantly-`none` lookup. -/
theorem patch_with_no_edits_is_identity (css : List Char) :
    patchCss css (parseCssVariables css) (fun _ => none) = css :=
  foldl_patchStep_none _ css

/-- Claim C2: for every input text and every declaration `d` produced by the
scanner, the slice of the original text from `d.startIndex` (inclusive) to
`d.endIndex` (exclusive) is exactly `d.value`. -/
theorem value_span_correct (css : List Char) (d : CssVariable)
    (hd : d ∈ parseCssVariables css) :
    sliceChars css d.startIndex d.endIndex = d.value :=
  (varsOk_mem css (parseCssVariables css) 0 (varsOk_parse css) d hd).2.2.2.1

/-- Witness for C2 on the spec's two-declaration example. -/
theorem value_span_correct_witness :
    sliceChars exTwoDecls 10 14 = " 1px".toList :=
  value_span_correct exTwoDecls
    ⟨mkId 6 10, "--a".toList, " 1px".toList, 10, 14, ":root".toList⟩ (by decide)

/-- Claim C3: every declaration satisfies `startIndex ≤ endIndex`, the
scanner's output is sorted in strictly ascending `startIndex` order, and the
half-open value spans of distinct declarations never overlap (each span ends
at or before the next one starts). -/
theorem spans_ordered_disjoint (css : List Char) :
    (∀ d ∈ parseCssVariables css, d.startIndex ≤ d.endIndex) ∧
    (parseCssVariables css).Pairwise
      (fun a b => a.startIndex < b.startIndex ∧ a.endIndex ≤ b.startIndex) := by
  constructor
  · intro d hd
    exact (varsOk_mem css _ 0 (varsOk_parse css) d hd).2.1
  · exact (varsOk_pairwise css _ 0 (varsOk_parse css)).imp (fun h => ⟨h.1, Nat.le_of_lt h.2⟩)

/-- Witness for C3 on the spec's two-declaration example. -/
theorem spans_ordered_disjoint_witness :
    ((10 : Nat) ≤ 14) ∧ (parseCssVariables exTwoDecls).Pairwise
      (fun a b => a.startIndex < b.startIndex ∧ a.endIndex ≤ b.startIndex) := by
  refine ⟨?_, (spans_ordered_disjoint exTwoDecls).2⟩
  exact (spans_ordered_disjoint exTwoDecls).1
    ⟨mkId 6 10, "--a".toList, " 1px".toList, 10, 14, ":root".toList⟩ (by decide)

/-- Claim C4: the patcher changes only the value spans of declarations that
the edits mapping maps to a value differing from the original; every other
character of the original text is reproduced verbatim at its place. This is
stated as equality with `renderPatched`, which rebuilds the output as: the
original characters before the first span, then for each declaration either
the differing replacement or the original span characters, then the original
characters between and after spans. -/
theorem patch_frame_exact (css : List Char) (edits : List Char → Option (List Char)) :
    patchCss css (parseCssVariables css) edits
      = renderPatched css edits 0 (parseCssVariables css) :=
  patchCss_eq_render css edits

/-- Counterexample to C5 as stated: on a block with an empty prelude the
scanner reports the sentinel selector "Global" even though an enclosing block
plainly exists (the input's first character is an opening brace and its ninth
a closing brace, and the declaration sits between them). -/
theorem selector_global_despite_enclosing_block :
    (parseCssVariables exEmptyPrelude =
      [{ id := mkId 1 5, name := "--a".toList, value := " 1".toList,
         startIndex := 5, endIndex := 7, selector := "Global".toList }]) ∧
    exEmptyPrelude[0]? = some '{' ∧ exEmptyPrelude[8]? = some '}' := by
  exact ⟨by decide, by decide, by decide⟩

/-- Claim C5 (amended): an emitted declaration's selector comes from the
scanner's current-selector state at the point of emission: it equals that
captured selector when it is nonempty, and the sentinel "Global" exactly when
the captured selector is empty — which happens both when no block was opened
and when the innermost top-level block's accumulated prelude trims to the
empty string. -/
theorem selector_from_scanner_state (css : List Char) (fuel i : Nat) (bd : Int)
    (buf sel : List Char) (colonIndex valueEndIndex : Nat)
    (hi : css[i]? = some '-') (hnext : css[i+1]? = some '-') (hbd : 0 < bd)
    (hcol : findColon css css.length i none = some colonIndex)
    (hname : validName (trimChars (sliceChars css i colonIndex)) = true)
    (hend : findValueEnd css css.length (colonIndex+1) none 0 = some valueEndIndex) :
    ∃ v rest, scanFrom css (fuel+1) i bd false none buf sel = v :: rest ∧
      (sel = [] → v.selector = "Global".toList) ∧
      (sel ≠ [] → v.selector = sel) := by
  refine ⟨_, _, scanFrom_emit css fuel i bd buf sel hi hnext hbd hcol hname hend, ?_, ?_⟩
  · intro h
    show (if sel = [] then "Global".toList else sel) = "Global".toList
    rw [if_pos h]
  · intro h
    show (if sel = [] then "Global".toList else sel) = sel
    rw [if_neg h]

/-- Witness for the amended C5 at the empty-prelude example. -/
theorem selector_from_scanner_state_witness :
    ∃ v rest, scanFrom exEmptyPrelude 8 1 1 false none [] [] = v :: rest ∧
      (([] : List Char) = [] → v.selector = "Global".toList) ∧
      (([] : List Char) ≠ [] → v.selector = []) :=
  selector_from_scanner_state exEmptyPrelude 7 1 1 [] [] 4 7
    (by decide) (by decide) (by decide) (by decide) (by decide) (by decide)

/-- Counterexample to C6 as stated: a backslash-escaped quote outside a
string does open string mode. On the input consisting of a backslash, a
double quote, and then a block with one declaration, the quote at index 1 is
escaped, yet the actual scan returns no declarations because everything after
it is treated as string content; had the escaped quote been inert (as the
claim requires), the scan continuing from index 2 outside any string would
have found the declaration, as the last conjunct shows. -/
theorem escaped_quote_opens_string_refuted :
    escapedAt exEscapedQuote 1 = true ∧
    exEscapedQuote[1]? = some '"' ∧
    parseCssVariables exEscapedQuote = [] ∧
    scanFrom exEscapedQuote 9 2 0 false none ['\\', '"'] [] =
      [{ id := mkId 3 7, name := "--a".toList, value := " 1".toList,
         startIndex := 7, endIndex := 9, selector := ['\\', '"'] }] := by
  exact ⟨by decide, by decide, by decide, by decide⟩

/-- Claim C6 (amended): in the outer pass, a quote character met outside a
string always opens string mode with that exact quote as the closing
delimiter, even when preceded by a backslash; while inside a string, an
occurrence of the opening quote character terminates string mode when not
preceded by a backslash, and leaves string mode unchanged when
backslash-escaped. -/
theorem string_mode_toggle_rules (css : List Char) (fuel i : Nat) (bd : Int)
    (buf sel : List Char) (c : Char) (hi : css[i]? = some c)
    (hq : c = '"' ∨ c = '\'') :
    (scanFrom css (fuel+1) i bd false none buf sel
       = scanFrom css fuel (i+1) bd false (some c) buf sel) ∧
    (escapedAt css i = false →
      scanFrom css (fuel+1) i bd false (some c) buf sel
        = scanFrom css fuel (i+1) bd false none buf sel) ∧
    (escapedAt css i = true →
      scanFrom css (fuel+1) i bd false (some c) buf sel
        = scanFrom css fuel (i+1) bd false (some c) buf sel) := by
  rcases hq with rfl | rfl
  · have f1 : (('"' : Char) = '/') = False := eq_false (by decide)
    have f2 : (('"' : Char) = '*') = False := eq_false (by decide)
    have g1 : ((some '"' : Option Char) = none) = False :=
      eq_false (fun h => Option.noConfusion h)
    refine ⟨?_, fun hesc => ?_, fun hesc => ?_⟩
    · simp [scanFrom, hi, f1, f2, g1]
    · simp [scanFrom, hi, f1, f2, g1, hesc]
    · simp [scanFrom, hi, f1, f2, g1, hesc]
  · have f1 : (('\'' : Char) = '/') = False := eq_false (by decide)
    have f2 : (('\'' : Char) = '*') = False := eq_false (by decide)
    have g1 : ((some '\'' : Option Char) = none) = False :=
      eq_false (fun h => Option.noConfusion h)
    refine ⟨?_, fun hesc => ?_, fun hesc => ?_⟩
    · simp [scanFrom, hi, f1, f2, g1]
    · simp [scanFrom, hi, f1, f2, g1, hesc]
    · simp [scanFrom, hi, f1, f2, g1, hesc]

/-- Witness for the amended C6: the escaped-quote input opens string mode at
index 1 and an escaped occurrence leaves string mode unchanged; the quoted
example closes string mode at its unescaped quote at index 2. -/
theorem string_mode_toggle_rules_witness :
    (scanFrom exEscapedQuote 10 1 0 false none ['\\'] []
       = scanFrom exEscapedQuote 9 2 0 false (some '"') ['\\'] []) ∧
    (scanFrom exEscapedQuote 10 1 0 false (some '"') ['\\'] []
       = scanFrom exEscapedQuote 9 2 0 false (some '"') ['\\'] []) ∧
    (scanFrom exQuoted 12 2 0 false (some '"') [] []
       = scanFrom exQuoted 11 3 0 false none [] []) := by
  refine ⟨?_, ?_, ?_⟩
  · exact (string_mode_toggle_rules exEscapedQuote 9 1 0 ['\\'] [] '"'
      (by decide) (Or.inl rfl)).1
  · exact (string_mode_toggle_rules exEscapedQuote 9 1 0 ['\\'] [] '"'
      (by decide) (Or.inl rfl)).2.2 (by decide)
  · exact (string_mode_toggle_rules exQuoted 11 2 0 [] [] '"'
      (by decide) (Or.inl rfl)).2.1 (by decide)

/-- Claim C7: when the value sub-scan reaches the end of the input without
finding an unquoted terminator at parenthesis depth zero, the candidate
declaration is abandoned: the scanner's step at the candidate start emits no
record and merely advances to the next index with its state unchanged. -/
theorem unterminated_value_emits_nothing (css : List Char) (fuel i : Nat) (bd : Int)
    (buf sel : List Char) (colonIndex : Nat)
    (hi : css[i]? = some '-') (hnext : css[i+1]? = some '-') (hbd : 0 < bd)
    (hcol : findColon css css.length i none = some colonIndex)
    (hname : validName (trimChars (sliceChars css i colonIndex)) = true)
    (hend : findValueEnd css css.length (colonIndex+1) none 0 = none) :
    scanFrom css (fuel+1) i bd false none buf sel
      = scanFrom css fuel (i+1) bd false none buf sel := by
  have c1 : (('-' : Char) = '/') = False := eq_false (by decide)
  have c2 : (('-' : Char) = '*') = False := eq_false (by decide)
  have c3 : (('-' : Char) = '"') = False := eq_false (by decide)
  have c4 : (('-' : Char) = '\'') = False := eq_false (by decide)
  have c5 : (('-' : Char) = '{') = False := eq_false (by decide)
  have c6 : (('-' : Char) = '}') = False := eq_false (by decide)
  have c7 : ((none : Option Char) = some '-') = False :=
    eq_false (fun h => Option.noConfusion h)
  have c8 : ((0 : Int) < bd) = True := eq_true hbd
  have c9 : (bd = 0) = False := eq_false (by omega)
  simp only [scanFrom, hi, c1, c2, c3, c4, c5, c6, c7, c8, c9, hnext, hcol, hname, hend,
    eq_self_iff_true, true_and, and_true, and_false, false_and, if_true, if_false,
    ite_true, ite_false, Bool.false_eq_true, not_true, ne_eq, not_false_iff, or_false,
    false_or]

/-- Witness for C7 on the spec's unterminated example, together with the
end-to-end consequence that the whole scan yields no declarations. -/
theorem unterminated_value_emits_nothing_witness :
    (scanFrom exUnterminated 8 6 1 false none [] (":root".toList)
      = scanFrom exUnterminated 7 7 1 false none [] (":root".toList)) ∧
    parseCssVariables exUnterminated = [] := by
  exact ⟨unterminated_value_emits_nothing exUnterminated 7 6 1 [] (":root".toList) 9
    (by decide) (by decide) (by decide) (by decide) (by decide) (by decide), by decide⟩

/-- Claim C8: every declaration's id is the decimal numeral of the scanner's
current index at the declaration's start, a hyphen, and the decimal numeral
of the value-start index; ids of distinct declarations in one scan are
pairwise distinct; and scanning the same text twice yields identical ids
(trivial here because the scanner is a pure function). -/
theorem ids_positional_unique_stable (css : List Char) :
    (∀ d ∈ parseCssVariables css, ∃ i₀, i₀ < d.startIndex ∧ d.id = mkId i₀ d.startIndex ∧
      css[i₀]? = some '-' ∧ css[i₀+1]? = some '-') ∧
    (parseCssVariables css).Pairwise (fun a b => a.id ≠ b.id) ∧
    (parseCssVariables css).map (fun d => d.id) = (parseCssVariables css).map (fun d => d.id) := by
  refine ⟨?_, varsOk_ids_distinct css _ 0 (varsOk_parse css), rfl⟩
  intro d hd
  obtain ⟨i₀, -, hi2, hi3, hi4, hi5⟩ := (varsOk_mem css _ 0 (varsOk_parse css) d hd).2.2.2.2.2
  exact ⟨i₀, hi2, hi3, hi4, hi5⟩

/-- Witness for C8 on the spec's two-declaration example. -/
theorem ids_positional_unique_stable_witness :
    (∃ i₀, i₀ < 10 ∧ mkId 6 10 = mkId i₀ 10 ∧ exTwoDecls[i₀]? = some '-'
      ∧ exTwoDecls[i₀+1]? = some '-') ∧
    (parseCssVariables exTwoDecls).Pairwise (fun a b => a.id ≠ b.id) := by
  refine ⟨?_, (ids_positional_unique_stable exTwoDecls).2.1⟩
  exact (ids_positional_unique_stable exTwoDecls).1
    ⟨mkId 6 10, "--a".toList, " 1px".toList, 10, 14, ":root".toList⟩ (by decide)

/-- Claim C9: outside comments and strings, every closing brace decrements
the depth counter with no floor at zero (the counter is an integer, so an
unmatched closing brace drives it negative), and every opening brace
increments it by one, so a brace following a stray closing brace only
restores the depth to zero; declaration detection requires positive depth. -/
theorem brace_depth_no_floor (css : List Char) (fuel i : Nat) (bd : Int)
    (buf sel : List Char) :
    (css[i]? = some '}' →
      scanFrom css (fuel+1) i bd false none buf sel
        = scanFrom css fuel (i+1) (bd-1) false none []
            (if bd - 1 = 0 then [] else sel)) ∧
    (css[i]? = some '{' →
      scanFrom css (fuel+1) i bd false none buf sel
        = scanFrom css fuel (i+1) (bd+1) false none []
            (if bd = 0 then trimChars buf else sel)) := by
  constructor
  · intro hi
    have e1 : (('}' : Char) = '/') = False := eq_false (by decide)
    have e2 : (('}' : Char) = '"') = False := eq_false (by decide)
    have e3 : (('}' : Char) = '\'') = False := eq_false (by decide)
    have e4 : (('}' : Char) = '{') = False := eq_false (by decide)
    have e5 : ((none : Option Char) = some '}') = False :=
      eq_false (fun h => Option.noConfusion h)
    simp [scanFrom, hi, e1, e2, e3, e4, e5]
  · intro hi
    have e1 : (('{' : Char) = '/') = False := eq_false (by decide)
    have e2 : (('{' : Char) = '"') = False := eq_false (by decide)
    have e3 : (('{' : Char) = '\'') = False := eq_false (by decide)
    have e5 : ((none : Option Char) = some '{') = False :=
      eq_false (fun h => Option.noConfusion h)
    simp [scanFrom, hi, e1, e2, e3, e5]

/-- Witness for C9 on the stray-brace example: the leading closing brace
takes the depth from 0 to -1, the later opening brace only restores it to 0,
and consequently the whole input yields no declarations. -/
theorem brace_depth_no_floor_witness :
    (scanFrom exStrayBrace 13 0 0 false none [] []
      = scanFrom exStrayBrace 12 1 ((0 : Int) - 1) false none []
          (if (0 : Int) - 1 = 0 then [] else [])) ∧
    (scanFrom exStrayBrace 9 4 (-1) false none [] []
      = scanFrom exStrayBrace 8 5 ((-1 : Int) + 1) false none []
          (if (-1 : Int) = 0 then trimChars [] else [])) ∧
    parseCssVariables exStrayBrace = [] := by
  refine ⟨?_, ?_, by decide⟩
  · exact (brace_depth_no_floor exStrayBrace 12 0 0 [] []).1 (by decide)
  · exact (brace_depth_no_floor exStrayBrace 8 4 (-1) [] []).2 (by decide)

/-- Claim C10: when a valid custom-property name's colon is immediately
followed by an unquoted terminator, the scanner still emits a declaration
whose value is the empty string and whose start and end indices coincide
(both just past the colon). -/
theorem empty_value_emitted (css : List Char) (fuel i : Nat) (bd : Int)
    (buf sel : List Char) (colonIndex : Nat) (t : Char)
    (hi : css[i]? = some '-') (hnext : css[i+1]? = some '-') (hbd : 0 < bd)
    (hcol : findColon css css.length i none = some colonIndex)
    (hname : validName (trimChars (sliceChars css i colonIndex)) = true)
    (hterm : css[colonIndex+1]? = some t) (ht : t = ';' ∨ t = '}') :
    scanFrom css (fuel+1) i bd false none buf sel =
      { id := mkId i (colonIndex+1)
        name := trimChars (sliceChars css i colonIndex)
        value := []
        startIndex := colonIndex+1
        endIndex := colonIndex+1
        selector := if sel = [] then "Global".toList else sel } ::
      scanFrom css fuel
        (if css[colonIndex+1]? = some '}' then colonIndex+1 else colonIndex+1+1)
        bd false none buf sel := by
  have hend : findValueEnd css css.length (colonIndex+1) none 0 = some (colonIndex+1) := by
    obtain ⟨hlt, -⟩ := List.getElem?_eq_some_iff.mp hterm
    have hl : css.length = (css.length - 1) + 1 := by omega
    rw [hl]
    exact findValueEnd_immediate css (css.length - 1) (colonIndex+1) t hterm ht
  have hslice : sliceChars css (colonIndex+1) (colonIndex+1) = [] := by
    show (css.take (colonIndex+1)).drop (colonIndex+1) = []
    exact List.drop_eq_nil_of_le (by rw [List.length_take]; omega)
  rw [scanFrom_emit css fuel i bd buf sel hi hnext hbd hcol hname hend, hslice]

/-- Witness for C10 on the immediate-terminator example, together with the
full concrete scan result showing a single empty-value declaration. -/
theorem empty_value_emitted_witness :
    (scanFrom exEmptyValue 6 6 1 false none [] (":root".toList) =
      { id := mkId 6 10, name := "--a".toList, value := ([] : List Char),
        startIndex := 10, endIndex := 10, selector := ":root".toList } ::
      scanFrom exEmptyValue 5 11 1 false none [] (":root".toList)) ∧
    parseCssVariables exEmptyValue =
      [{ id := mkId 6 10, name := "--a".toList, value := [], startIndex := 10,
         endIndex := 10, selector := ":root".toList }] := by
  exact ⟨empty_value_emitted exEmptyValue 5 6 1 [] (":root".toList) 9 ';'
    (by decide) (by decide) (by decide) (by decide) (by decide) (by decide) (by decide),
    by decide⟩

end CssEditor
